import Mathlib

/-!
Verification of the thread-ownership wrappers of ConcurrencyPlayground
(file "02- Managing Threads.cpp"): thread_guard, scoped_thread and
joining_thread over the semantics of std::thread, together with a trace
model of handle ownership and an interleaving model of worker execution.
-/

namespace ConcurrencyPlayground

/-- Pointwise update of a store, used for by-reference writes and for the
interleaving model of worker memory. -/
def upd (f : Nat → Nat) (k v : Nat) : Nat → Nat := fun x => if x = k then v else f x

/-- Error kinds surfaced by the wrappers. `invalidHandle` models the
std::logic_error thrown by the scoped_thread constructor on a non-joinable
thread; `notJoinable` models the std::system_error thrown by
std::thread::join and std::thread::detach on a non-joinable thread. -/
inductive ThreadError
  | invalidHandle
  | notJoinable
deriving DecidableEq, Repr

/-- Resolution events performed on a worker: `waited w` is a completed
join of worker `w`, `released w` is a detach of worker `w`. -/
inductive Event
  | waited (w : Nat)
  | released (w : Nat)
deriving DecidableEq, Repr

/-- The worker an event resolves. -/
def Event.worker : Event → Nat
  | .waited w => w
  | .released w => w

/-- A std::thread object: it owns at most one worker, identified by a
natural-number id (`tid = none` models a thread object not associated
with any thread of execution). -/
structure StdThread where
  tid : Option Nat
deriving DecidableEq, Repr

/-- std::thread::joinable: true exactly when a worker is owned. -/
def StdThread.joinable (t : StdThread) : Bool := t.tid.isSome

/-- std::thread::join: on a joinable thread it blocks until the worker
finishes, emits a `waited` event and leaves the object empty; on a
non-joinable thread it throws (modelled as `notJoinable`). -/
def StdThread.join : StdThread → Except ThreadError (StdThread × Event)
  | ⟨some w⟩ => .ok (⟨none⟩, .waited w)
  | ⟨none⟩ => .error .notJoinable

/-- std::thread::detach: on a joinable thread it gives up ownership and
the worker keeps running; on a non-joinable thread it throws. -/
def StdThread.detach : StdThread → Except ThreadError (StdThread × Event)
  | ⟨some w⟩ => .ok (⟨none⟩, .released w)
  | ⟨none⟩ => .error .notJoinable

/-- The joining_thread class: a movable owning wrapper around a
std::thread. -/
structure joining_thread where
  t : StdThread
deriving DecidableEq, Repr

/-- joining_thread::joinable, forwarding to the underlying thread. -/
def joining_thread.joinable (h : joining_thread) : Bool := h.t.joinable

/-- joining_thread::join, forwarding to std::thread::join unguarded. -/
def joining_thread.join (h : joining_thread) : Except ThreadError (joining_thread × Event) :=
  match h.t.join with
  | .ok (t1, e) => .ok (⟨t1⟩, e)
  | .error e => .error e

/-- joining_thread::detach, forwarding to std::thread::detach unguarded. -/
def joining_thread.detach (h : joining_thread) : Except ThreadError (joining_thread × Event) :=
  match h.t.detach with
  | .ok (t1, e) => .ok (⟨t1⟩, e)
  | .error e => .error e

/-- The joining_thread move constructor: the new handle takes the
underlying thread and the source is left empty. Returns the pair
(constructed handle, source after the move). -/
def joining_thread.moveConstruct (other : joining_thread) : joining_thread × joining_thread :=
  (⟨other.t⟩, ⟨⟨none⟩⟩)

/-- joining_thread move assignment: if the destination is joinable it
joins its current worker first, then takes the source thread, leaving the
source empty. Returns (destination after, source after, events emitted). -/
def joining_thread.moveAssign (self other : joining_thread) :
    joining_thread × joining_thread × List Event :=
  match self.t.tid with
  | some w => (⟨other.t⟩, ⟨⟨none⟩⟩, [Event.waited w])
  | none => (⟨other.t⟩, ⟨⟨none⟩⟩, [])

/-- joining_thread assignment from a raw std::thread: same join-first
policy before adopting the incoming thread. -/
def joining_thread.assignThread (self : joining_thread) (other : StdThread) :
    joining_thread × List Event :=
  match self.t.tid with
  | some w => (⟨other⟩, [Event.waited w])
  | none => (⟨other⟩, [])

/-- The joining_thread destructor: joins if joinable, otherwise does
nothing. Returns the handle state it leaves behind and the events
emitted; the error branch of join is unreachable because the call is
guarded by the joinable check. -/
def joining_thread.destroy (h : joining_thread) : joining_thread × List Event :=
  if h.joinable then
    match h.join with
    | .ok (h1, e) => (h1, [e])
    | .error _ => (h, [])
  else (h, [])

/-- joining_thread::swap: exchanges the two underlying threads; no join
or detach is performed, so no events are emitted. -/
def joining_thread.swap (self other : joining_thread) :
    joining_thread × joining_thread × List Event :=
  (⟨other.t⟩, ⟨self.t⟩, [])

/-- The thread_guard destructor: it holds a reference to a std::thread
and joins it if joinable. Returns the referenced thread afterwards and
the events emitted. -/
def thread_guard.destroy (t : StdThread) : StdThread × List Event :=
  if t.joinable then
    match t.join with
    | .ok (t1, e) => (t1, [e])
    | .error _ => (t, [])
  else (t, [])

/-- The scoped_thread class: owns a std::thread adopted at construction. -/
structure scoped_thread where
  t : StdThread
deriving DecidableEq, Repr

/-- The scoped_thread constructor: moves the given thread in and throws
std::logic_error (modelled as `invalidHandle`) when it is not joinable,
so no object is created in that case. -/
def scoped_thread.adopt (t_ : StdThread) : Except ThreadError scoped_thread :=
  let s : scoped_thread := ⟨t_⟩
  if !s.t.joinable then .error .invalidHandle else .ok s

/-- RAII scope running a body that ends in a value or in an error: on
either exit path the destructor of the owned handle runs. Returns the
body outcome together with the destructor result. -/
def runScope {ε α : Type} (h : joining_thread) (body : Except ε α) :
    Except ε α × joining_thread × List Event :=
  (body, h.destroy)

/-- System state for the ownership trace model: a list of handle slots
(each slot is the underlying thread id of one joining_thread, `none` when
the handle owns nothing) and the log of resolution events emitted so far. -/
structure Sys where
  handles : List (Option Nat)
  events : List Event
deriving DecidableEq, Repr

/-- Number of handles currently owning worker `w`. -/
def owners (s : Sys) (w : Nat) : Nat :=
  s.handles.countP fun o => decide (o = some w)

/-- Number of resolution events (join or detach) performed on worker `w`. -/
def resolutions (evs : List Event) (w : Nat) : Nat :=
  evs.countP fun e => decide (e.worker = w)

/-- Handle operations available on joining_thread objects: move
construction, move assignment, join, detach, swap and destruction.
There is no copy operation, mirroring the deleted copy constructor. -/
inductive Op
  | moveCtor (src : Nat)
  | moveAssign (dst src : Nat)
  | join (i : Nat)
  | detach (i : Nat)
  | swap (i j : Nat)
  | destroy (i : Nat)
deriving DecidableEq, Repr

/-- One handle operation on the system, coded from the joining_thread
member functions. Move assignment first joins the destination if it is
joinable (emitting the event), then transfers and empties the source;
join and detach on an empty handle fail and leave the state unchanged;
swap exchanges slots without events; destruction joins when joinable.
Operations naming slots out of range do nothing. -/
def step (s : Sys) (op : Op) : Sys :=
  match op with
  | .moveCtor src =>
    if src < s.handles.length then
      let v := s.handles.getD src none
      { handles := (s.handles.set src none) ++ [v], events := s.events }
    else s
  | .moveAssign dst src =>
    if dst < s.handles.length ∧ src < s.handles.length then
      let dv := s.handles.getD dst none
      let evs := match dv with | some w => [Event.waited w] | none => []
      let h1 := s.handles.set dst none
      let sv := h1.getD src none
      { handles := (h1.set src none).set dst sv, events := s.events ++ evs }
    else s
  | .join i =>
    if i < s.handles.length then
      match s.handles.getD i none with
      | some w => { handles := s.handles.set i none, events := s.events ++ [Event.waited w] }
      | none => s
    else s
  | .detach i =>
    if i < s.handles.length then
      match s.handles.getD i none with
      | some w => { handles := s.handles.set i none, events := s.events ++ [Event.released w] }
      | none => s
    else s
  | .swap i j =>
    if i < s.handles.length ∧ j < s.handles.length then
      let vi := s.handles.getD i none
      let vj := s.handles.getD j none
      { handles := (s.handles.set i vj).set j vi, events := s.events }
    else s
  | .destroy i =>
    if i < s.handles.length then
      match s.handles.getD i none with
      | some w => { handles := s.handles.set i none, events := s.events ++ [Event.waited w] }
      | none => s
    else s

/-- Run a sequence of handle operations. -/
def run (s : Sys) (ops : List Op) : Sys := ops.foldl step s

/-- World state for the interleaving model of worker execution: each
worker id has a number of remaining increments to perform on its own
private counter, and the shared memory records the counters. -/
structure World where
  rem : Nat → Nat
  ctr : Nat → Nat

/-- Scheduler actions: `work w` lets worker `w` execute one increment of
its private counter; `joinRet w` is the moment a join of worker `w`
returns in the calling thread. -/
inductive SStep
  | work (w : Nat)
  | joinRet (w : Nat)
deriving DecidableEq, Repr

/-- One step of the interleaving semantics. `work w` is enabled while
worker `w` has remaining work; `joinRet w` is enabled only when worker
`w` has finished, because join blocks until the worker completes. -/
inductive Step : World → SStep → World → Prop
  | work (s : World) (w : Nat) (h : 0 < s.rem w) :
      Step s (.work w) ⟨upd s.rem w (s.rem w - 1), upd s.ctr w (s.ctr w + 1)⟩
  | joinRet (s : World) (w : Nat) (h : s.rem w = 0) :
      Step s (.joinRet w) s

/-- An execution trace: a sequence of scheduler actions each taken by
the step relation. -/
inductive Trace : World → List SStep → World → Prop
  | nil (s : World) : Trace s [] s
  | cons {s s1 s2 : World} {a : SStep} {tr : List SStep} :
      Step s a s1 → Trace s1 tr s2 → Trace s (a :: tr) s2

/-- An argument as stored inside the thread object: either a value copy
taken at creation time, or a reference wrapper produced by std::ref. -/
inductive ThreadArg
  | val (v : Nat)
  | ref (loc : Nat)
deriving DecidableEq, Repr

/-- How the caller passes an lvalue to the thread constructor: plainly,
or wrapped with std::ref. -/
inductive PassMode
  | plain
  | byRef
deriving DecidableEq, Repr

/-- The std::thread constructor copies each argument into internal
storage at creation time: a plainly passed lvalue is copied by value,
while std::ref stores a reference wrapper to the original location
(section 2.2, oops_again). -/
def captureArg (store : Nat → Nat) (mode : PassMode) (loc : Nat) : ThreadArg :=
  match mode with
  | .plain => .val (store loc)
  | .byRef => .ref loc

/-- The worker invokes update_data_for_widget on the captured argument,
mutating the widget_data it receives by applying `f`. A by-value capture
mutates only the internal copy, which is discarded; a std::ref capture
writes through to the original location. Returns the caller store as
observed after the worker has run. -/
def runUpdateWorker (f : Nat → Nat) (store : Nat → Nat) : ThreadArg → (Nat → Nat)
  | .val _ => store
  | .ref loc => upd store loc (f (store loc))

/-- The oops_again scenario: the caller holds widget_data at `loc`,
creates a worker running update_data_for_widget on it under the given
pass mode, and joins. Returns the caller store afterwards. -/
def oopsAgainStore (mode : PassMode) (f : Nat → Nat) (store : Nat → Nat) (loc : Nat) :
    Nat → Nat :=
  runUpdateWorker f store (captureArg store mode loc)

/-- A world with two workers, ids 1 and 2, each with one increment to
perform on its own counter. -/
def twoWorld : World := ⟨fun x => if x = 1 then 1 else if x = 2 then 1 else 0, fun _ => 0⟩

/-- A world with a single worker, id 1, holding two increments of work. -/
def oneWorld : World := ⟨fun x => if x = 1 then 2 else 0, fun _ => 0⟩

theorem getD_set_self : ∀ (l : List (Option Nat)) (i : Nat) (v : Option Nat),
    i < l.length → (l.set i v).getD i none = v := by
  intro l
  induction l with
  | nil => intro i v h; simp at h
  | cons a l ih =>
    intro i v h
    cases i with
    | zero => rfl
    | succ n =>
      have hn : n < l.length := by simpa using h
      simpa using ih n v hn

theorem getD_set_ne : ∀ (l : List (Option Nat)) (i j : Nat) (v : Option Nat),
    i ≠ j → (l.set i v).getD j none = l.getD j none := by
  intro l
  induction l with
  | nil => intro i j v _; rfl
  | cons a l ih =>
    intro i j v hij
    cases i with
    | zero =>
      cases j with
      | zero => exact absurd rfl hij
      | succ m => rfl
    | succ n =>
      cases j with
      | zero => rfl
      | succ m =>
        have : n ≠ m := by omega
        simpa using ih n m v this

theorem countP_set_balance (p : Option Nat → Bool) :
    ∀ (l : List (Option Nat)) (i : Nat) (v : Option Nat), i < l.length →
    (l.set i v).countP p + (if p (l.getD i none) then 1 else 0)
      = l.countP p + (if p v then 1 else 0) := by
  intro l
  induction l with
  | nil => intro i v h; simp at h
  | cons a l ih =>
    intro i v h
    cases i with
    | zero =>
      simp only [List.set, List.getD_cons_zero, List.countP_cons]
      omega
    | succ n =>
      have hn : n < l.length := by simpa using h
      have := ih n v hn
      simp only [List.set, List.getD_cons_succ, List.countP_cons]
      omega

theorem resolutions_append (evs1 evs2 : List Event) (w : Nat) :
    resolutions (evs1 ++ evs2) w = resolutions evs1 w + resolutions evs2 w := by
  simp [resolutions, List.countP_append]

theorem step_preserves_sum (s : Sys) (op : Op) (w : Nat) :
    owners (step s op) w + resolutions (step s op).events w
      = owners s w + resolutions s.events w := by
  obtain ⟨l, evs⟩ := s
  cases op with
  | moveCtor src =>
    simp only [step]
    split
    · next hlt =>
      have hb := countP_set_balance (fun o => decide (o = some w)) l src none hlt
      simp only [owners, resolutions, List.countP_append, List.countP_cons,
        List.countP_nil, decide_eq_true_eq] at hb ⊢
      simp only [reduceCtorEq, if_false] at hb
      omega
    · rfl
  | moveAssign dst src =>
    simp only [step]
    split
    · next hlt =>
      obtain ⟨hd, hs⟩ := hlt
      have hd1 : dst < (l.set dst none).length := by simpa using hd
      have hs1 : src < (l.set dst none).length := by simpa using hs
      have hd2 : dst < ((l.set dst none).set src none).length := by simpa using hd
      have hE1 := countP_set_balance (fun o => decide (o = some w)) l dst none hd
      have hE2 := countP_set_balance (fun o => decide (o = some w))
        (l.set dst none) src none hs1
      have hE3 := countP_set_balance (fun o => decide (o = some w))
        ((l.set dst none).set src none) dst ((l.set dst none).getD src none) hd2
      have hG : ((l.set dst none).set src none).getD dst none = none := by
        by_cases hds : src = dst
        · subst hds
          exact getD_set_self (l.set src none) src none hs1
        · rw [getD_set_ne (l.set dst none) src dst none hds]
          exact getD_set_self l dst none hd
      rw [hG] at hE3
      rcases hdv : l.getD dst none with _ | w1
      · rw [hdv] at hE1
        simp only [owners, resolutions, List.append_nil, decide_eq_true_eq] at hE1 hE2 hE3 ⊢
        simp only [reduceCtorEq, if_false] at hE1 hE2 hE3
        omega
      · rw [hdv] at hE1
        simp only [owners, resolutions, List.countP_append, List.countP_cons,
          List.countP_nil, decide_eq_true_eq, Option.some.injEq, Event.worker] at hE1 hE2 hE3 ⊢
        simp only [reduceCtorEq, if_false] at hE1 hE2 hE3
        omega
    · rfl
  | join i =>
    simp only [step]
    split
    · next hlt =>
      rcases hdv : l.getD i none with _ | w1
      · rfl
      · have hb := countP_set_balance (fun o => decide (o = some w)) l i none hlt
        rw [hdv] at hb
        simp only [owners, resolutions, List.countP_append, List.countP_cons,
          List.countP_nil, decide_eq_true_eq, Option.some.injEq, Event.worker] at hb ⊢
        simp only [reduceCtorEq, if_false] at hb
        omega
    · rfl
  | detach i =>
    simp only [step]
    split
    · next hlt =>
      rcases hdv : l.getD i none with _ | w1
      · rfl
      · have hb := countP_set_balance (fun o => decide (o = some w)) l i none hlt
        rw [hdv] at hb
        simp only [owners, resolutions, List.countP_append, List.countP_cons,
          List.countP_nil, decide_eq_true_eq, Option.some.injEq, Event.worker] at hb ⊢
        simp only [reduceCtorEq, if_false] at hb
        omega
    · rfl
  | swap i j =>
    simp only [step]
    split
    · next hlt =>
      obtain ⟨hi, hj⟩ := hlt
      have hj1 : j < (l.set i (l.getD j none)).length := by simpa using hj
      have hE1 := countP_set_balance (fun o => decide (o = some w)) l i (l.getD j none) hi
      have hE2 := countP_set_balance (fun o => decide (o = some w))
        (l.set i (l.getD j none)) j (l.getD i none) hj1
      have hG : (l.set i (l.getD j none)).getD j none = l.getD j none := by
        by_cases hij : i = j
        · subst hij
          exact getD_set_self l i (l.getD i none) hi
        · exact getD_set_ne l i j (l.getD j none) hij
      rw [hG] at hE2
      simp only [owners, resolutions, decide_eq_true_eq] at hE1 hE2 ⊢
      omega
    · rfl
  | destroy i =>
    simp only [step]
    split
    · next hlt =>
      rcases hdv : l.getD i none with _ | w1
      · rfl
      · have hb := countP_set_balance (fun o => decide (o = some w)) l i none hlt
        rw [hdv] at hb
        simp only [owners, resolutions, List.countP_append, List.countP_cons,
          List.countP_nil, decide_eq_true_eq, Option.some.injEq, Event.worker] at hb ⊢
        simp only [reduceCtorEq, if_false] at hb
        omega
    · rfl

theorem run_preserves_sum (w : Nat) : ∀ (ops : List Op) (s : Sys),
    owners (run s ops) w + resolutions (run s ops).events w
      = owners s w + resolutions s.events w := by
  intro ops
  induction ops with
  | nil => intro s; rfl
  | cons op ops ih =>
    intro s
    have h1 : run s (op :: ops) = run (step s op) ops := rfl
    rw [h1, ih (step s op), step_preserves_sum]

theorem step_sum_invariant {s s1 : World} {a : SStep} (h : Step s a s1) (v : Nat) :
    s1.rem v + s1.ctr v = s.rem v + s.ctr v := by
  cases h with
  | work w hp =>
    by_cases hv : v = w
    · subst hv
      simp [upd]
      omega
    · simp only [upd, if_neg hv]
  | joinRet => rfl

theorem trace_sum_invariant {s s2 : World} {tr : List SStep} (h : Trace s tr s2) (v : Nat) :
    s2.rem v + s2.ctr v = s.rem v + s.ctr v := by
  induction h with
  | nil => rfl
  | cons hstep _ ih => rw [ih, step_sum_invariant hstep]

theorem step_rem_stable {s s1 : World} {a : SStep} (h : Step s a s1) (v : Nat)
    (hz : s.rem v = 0) : s1.rem v = 0 := by
  cases h with
  | work w hp =>
    by_cases hv : v = w
    · subst hv; omega
    · simpa only [upd, if_neg hv] using hz
  | joinRet => exact hz

theorem trace_rem_stable {s s2 : World} {tr : List SStep} (h : Trace s tr s2) (v : Nat)
    (hz : s.rem v = 0) : s2.rem v = 0 := by
  induction h with
  | nil => exact hz
  | cons hstep _ ih => exact ih (step_rem_stable hstep v hz)

theorem trace_append_split : ∀ (tr1 : List SStep) {s s2 : World} (tr2 : List SStep),
    Trace s (tr1 ++ tr2) s2 → ∃ smid, Trace s tr1 smid ∧ Trace smid tr2 s2 := by
  intro tr1
  induction tr1 with
  | nil => intro s s2 tr2 h; exact ⟨s, Trace.nil s, h⟩
  | cons a tr ih =>
    intro s s2 tr2 h
    cases h with
    | cons hstep htr =>
      obtain ⟨m, h1, h2⟩ := ih tr2 htr
      exact ⟨m, Trace.cons hstep h1, h2⟩

theorem trace_work_completes (w : Nat) : ∀ (k : Nat) (s : World), s.rem w = k →
    ∃ s1, Trace s (List.replicate k (SStep.work w)) s1
      ∧ s1.rem w = 0 ∧ s1.ctr w = s.ctr w + k := by
  intro k
  induction k with
  | zero =>
    intro s hs
    exact ⟨s, Trace.nil s, hs, rfl⟩
  | succ n ih =>
    intro s hs
    have hstep := Step.work s w (by omega)
    have hmid : (upd s.rem w (s.rem w - 1)) w = n := by
      simp [upd]
      omega
    obtain ⟨s2, htr, hrem, hctr⟩ :=
      ih ⟨upd s.rem w (s.rem w - 1), upd s.ctr w (s.ctr w + 1)⟩ hmid
    refine ⟨s2, Trace.cons hstep htr, hrem, ?_⟩
    simp [upd] at hctr
    omega

/-- C1: a handle that still owns an unresolved worker when it is
destroyed has wait performed on that worker by the implicit destroy, on
every exit path of its scope (normal value or propagating error alike):
the destructor emits the join of that worker and the handle holds no
worker afterwards; in the execution model a join can only return once
the worker has no remaining work. The thread_guard destructor joins in
the same way. -/
theorem C1_scope_exit_joins (h : joining_thread) (w : Nat) (hw : h.t.tid = some w)
    {ε α : Type} (body : Except ε α) :
    (runScope h body).1 = body
    ∧ (runScope h body).2 = (⟨⟨none⟩⟩, [Event.waited w])
    ∧ thread_guard.destroy ⟨some w⟩ = (⟨none⟩, [Event.waited w])
    ∧ (∀ s s1 : World, Step s (SStep.joinRet w) s1 → s.rem w = 0) := by
  obtain ⟨⟨tid⟩⟩ := h
  cases hw
  refine ⟨rfl, rfl, rfl, ?_⟩
  intro s s1 hst
  cases hst
  assumption

/-- Witness for C1 at a concrete handle owning worker 3 and a normal
scope exit. -/
theorem C1_scope_exit_joins_witness :
    (runScope (⟨⟨some 3⟩⟩ : joining_thread) (Except.ok 0 : Except Unit Nat)).2
      = (⟨⟨none⟩⟩, [Event.waited 3]) :=
  (C1_scope_exit_joins ⟨⟨some 3⟩⟩ 3 rfl (Except.ok 0)).2.1

/-- C2: handles are movable but not copyable (the operation language has
no copy operation), a move empties the source handle, and along every
sequence of handle operations, when worker w starts exclusively owned
and unresolved, the number of current owners plus the number of
resolutions performed on it stays exactly one; hence at most one handle
owns it at any point and once no handle owns it exactly one resolution
has been performed over its lifetime. -/
theorem C2_exactly_once_ownership (w : Nat) (s : Sys) (ops : List Op)
    (hinv : owners s w + resolutions s.events w = 1) :
    owners (run s ops) w + resolutions (run s ops).events w = 1
    ∧ owners (run s ops) w ≤ 1
    ∧ (owners (run s ops) w = 0 → resolutions (run s ops).events w = 1)
    ∧ (∀ a b : joining_thread, (joining_thread.moveConstruct b).2.t.tid = none
        ∧ (a.moveAssign b).2.1.t.tid = none) := by
  have hrun := run_preserves_sum w ops s
  rw [hinv] at hrun
  refine ⟨hrun, by omega, by omega, ?_⟩
  intro a b
  refine ⟨rfl, ?_⟩
  obtain ⟨⟨_ | w1⟩⟩ := a <;> rfl

/-- Witness for C2: one handle owning worker 7, then a move
construction, a move assignment and a destruction; the owner count plus
resolution count is one throughout. -/
theorem C2_exactly_once_ownership_witness :
    owners (run ⟨[some 7], []⟩ [Op.moveCtor 0, Op.moveAssign 0 1, Op.destroy 0]) 7
      + resolutions (run ⟨[some 7], []⟩
          [Op.moveCtor 0, Op.moveAssign 0 1, Op.destroy 0]).events 7 = 1 :=
  (C2_exactly_once_ownership 7 ⟨[some 7], []⟩
    [Op.moveCtor 0, Op.moveAssign 0 1, Op.destroy 0] (by decide)).1

/-- C3: a move assignment whose destination currently owns an unresolved
worker first waits on that worker (the join event is emitted) before the
destination takes ownership of the transferred thread, and the same
join-first policy holds for assignment from a raw std::thread; ownership
is never silently dropped by reassignment. -/
theorem C3_assign_joins_destination (d s : joining_thread) (w : Nat)
    (hw : d.t.tid = some w) (t : StdThread) :
    d.moveAssign s = (⟨s.t⟩, ⟨⟨none⟩⟩, [Event.waited w])
    ∧ d.assignThread t = (⟨t⟩, [Event.waited w]) := by
  obtain ⟨⟨tid⟩⟩ := d
  cases hw
  exact ⟨rfl, rfl⟩

/-- Witness for C3 at a destination owning worker 4 receiving a handle
owning worker 9. -/
theorem C3_assign_joins_destination_witness :
    joining_thread.moveAssign ⟨⟨some 4⟩⟩ ⟨⟨some 9⟩⟩
      = (⟨⟨some 9⟩⟩, ⟨⟨none⟩⟩, [Event.waited 4]) :=
  (C3_assign_joins_destination ⟨⟨some 4⟩⟩ ⟨⟨some 9⟩⟩ 4 rfl ⟨some 9⟩).1

/-- C4: adopting a non-joinable thread fails at construction with
invalidHandle and no scoped_thread instance is produced, while adopting
any joinable thread succeeds and the created object holds that thread. -/
theorem C4_adopt_validation (t : StdThread) :
    (t.tid = none → scoped_thread.adopt t = Except.error ThreadError.invalidHandle)
    ∧ (∀ w, t.tid = some w → scoped_thread.adopt t = Except.ok ⟨t⟩) := by
  obtain ⟨tid⟩ := t
  constructor
  · intro h
    cases h
    rfl
  · intro w h
    cases h
    rfl

/-- Witness for C4: adoption of an empty thread is rejected and adoption
of a thread owning worker 5 succeeds. -/
theorem C4_adopt_validation_witness :
    scoped_thread.adopt ⟨none⟩ = Except.error ThreadError.invalidHandle
    ∧ scoped_thread.adopt ⟨some 5⟩ = Except.ok ⟨⟨some 5⟩⟩ :=
  ⟨(C4_adopt_validation ⟨none⟩).1 rfl, (C4_adopt_validation ⟨some 5⟩).2 5 rfl⟩

/-- C5: wait or release on a handle owning no worker fails with the
error kind notJoinable, distinct from invalidHandle, and the handle and
event log are left unchanged; in particular a second wait on the same
handle with no intervening new worker fails with notJoinable and the
worker effects are not re-applied. -/
theorem C5_not_joinable_error (h : joining_thread) (hw : h.t.tid = none) :
    h.join = Except.error ThreadError.notJoinable
    ∧ h.detach = Except.error ThreadError.notJoinable
    ∧ ThreadError.notJoinable ≠ ThreadError.invalidHandle
    ∧ (∀ (g : joining_thread) (w : Nat), g.t.tid = some w →
        ∃ g1, g.join = Except.ok (g1, Event.waited w)
          ∧ g1.join = Except.error ThreadError.notJoinable)
    ∧ (∀ (s : Sys) (i : Nat), s.handles.getD i none = none →
        step s (Op.join i) = s ∧ step s (Op.detach i) = s) := by
  obtain ⟨⟨tid⟩⟩ := h
  cases hw
  refine ⟨rfl, rfl, by decide, ?_, ?_⟩
  · intro g w hg
    obtain ⟨⟨tidg⟩⟩ := g
    cases hg
    exact ⟨⟨⟨none⟩⟩, rfl, rfl⟩
  · intro s i hge
    constructor
    · show step s (Op.join i) = s
      simp only [step]
      split
      · rw [hge]
      · rfl
    · show step s (Op.detach i) = s
      simp only [step]
      split
      · rw [hge]
      · rfl

/-- Witness for C5: joining an empty handle errors with notJoinable. -/
theorem C5_not_joinable_error_witness :
    joining_thread.join ⟨⟨none⟩⟩ = Except.error ThreadError.notJoinable :=
  (C5_not_joinable_error ⟨⟨none⟩⟩ rfl).1

/-- C6: after release the originating handle reports no owned worker and
subsequent wait or release on it fails with notJoinable, while the
released worker is no longer reachable through the handle yet still runs
independently to completion: from any world its remaining work executes
and its private counter reaches the full total. -/
theorem C6_release_detaches (h : joining_thread) (w : Nat) (hw : h.t.tid = some w)
    (s : World) :
    ∃ h1, h.detach = Except.ok (h1, Event.released w)
      ∧ h1.t.tid = none
      ∧ h1.joinable = false
      ∧ h1.join = Except.error ThreadError.notJoinable
      ∧ h1.detach = Except.error ThreadError.notJoinable
      ∧ ∃ s1, Trace s (List.replicate (s.rem w) (SStep.work w)) s1
          ∧ s1.rem w = 0 ∧ s1.ctr w = s.ctr w + s.rem w := by
  obtain ⟨⟨tid⟩⟩ := h
  cases hw
  exact ⟨⟨⟨none⟩⟩, rfl, rfl, rfl, rfl, rfl, trace_work_completes w (s.rem w) s rfl⟩

/-- Witness for C6 at a handle owning worker 2 and a world where worker
2 has no pending work recorded under id 2 of oneWorld. -/
theorem C6_release_detaches_witness :
    ∃ h1, joining_thread.detach ⟨⟨some 2⟩⟩ = Except.ok (h1, Event.released 2)
      ∧ h1.t.tid = none
      ∧ h1.joinable = false
      ∧ h1.join = Except.error ThreadError.notJoinable
      ∧ h1.detach = Except.error ThreadError.notJoinable
      ∧ ∃ s1, Trace oneWorld (List.replicate (oneWorld.rem 2) (SStep.work 2)) s1
          ∧ s1.rem 2 = 0 ∧ s1.ctr 2 = oneWorld.ctr 2 + oneWorld.rem 2 :=
  C6_release_detaches ⟨⟨some 2⟩⟩ 2 rfl oneWorld

/-- C7: arguments are captured by value by default: the thread stores a
copy of the caller value taken at creation time, the worker mutates only
that copy and the caller store is left entirely unchanged; only the
explicit std::ref marker makes the worker write through to the caller
location. -/
theorem C7_capture_by_value (f : Nat → Nat) (store : Nat → Nat) (loc : Nat) :
    oopsAgainStore PassMode.plain f store loc = store
    ∧ captureArg store PassMode.plain loc = ThreadArg.val (store loc)
    ∧ oopsAgainStore PassMode.byRef f store loc loc = f (store loc) := by
  refine ⟨rfl, rfl, ?_⟩
  simp [oopsAgainStore, runUpdateWorker, captureArg, upd]

/-- C8: in the interleaving execution model, when a join of worker w
returns inside a trace the worker has no remaining work from that point
on and all of its counter increments are visible in the final state
(happens-before on wait return); and no ordering is guaranteed between
concurrently running workers: both interleavings of two workers are
admitted by the semantics. -/
theorem C8_happens_before (init final : World) (w : Nat) (tr1 tr2 : List SStep)
    (h : Trace init (tr1 ++ SStep.joinRet w :: tr2) final) :
    (final.rem w = 0 ∧ final.ctr w = init.ctr w + init.rem w)
    ∧ (∃ sA, Trace twoWorld
        [SStep.work 1, SStep.work 2, SStep.joinRet 2, SStep.joinRet 1] sA)
    ∧ (∃ sB, Trace twoWorld
        [SStep.work 2, SStep.work 1, SStep.joinRet 1, SStep.joinRet 2] sB) := by
  obtain ⟨mid, h1, h2⟩ := trace_append_split tr1 (SStep.joinRet w :: tr2) h
  cases h2 with
  | cons hstep htr =>
    have hmz : mid.rem w = 0 := by cases hstep; assumption
    have hfin : final.rem w = 0 := by
      cases hstep
      exact trace_rem_stable htr w hmz
    have hsum := trace_sum_invariant h w
    refine ⟨⟨hfin, by omega⟩, ?_, ?_⟩
    · exact ⟨_, Trace.cons (Step.work twoWorld 1 (by decide))
        (Trace.cons (Step.work _ 2 (by decide))
        (Trace.cons (Step.joinRet _ 2 (by decide))
        (Trace.cons (Step.joinRet _ 1 (by decide)) (Trace.nil _))))⟩
    · exact ⟨_, Trace.cons (Step.work twoWorld 2 (by decide))
        (Trace.cons (Step.work _ 1 (by decide))
        (Trace.cons (Step.joinRet _ 1 (by decide))
        (Trace.cons (Step.joinRet _ 2 (by decide)) (Trace.nil _))))⟩

/-- Witness for C8: a concrete execution of the two increments of worker
1 in oneWorld followed by the returning join. -/
theorem C8_happens_before_witness :
    ∃ final, Trace oneWorld ([SStep.work 1, SStep.work 1] ++ SStep.joinRet 1 :: []) final
      ∧ final.rem 1 = 0 ∧ final.ctr 1 = oneWorld.ctr 1 + oneWorld.rem 1 := by
  obtain ⟨fin, htr⟩ :
      ∃ fin, Trace oneWorld ([SStep.work 1, SStep.work 1] ++ SStep.joinRet 1 :: []) fin :=
    ⟨_, Trace.cons (Step.work oneWorld 1 (by decide))
      (Trace.cons (Step.work _ 1 (by decide))
      (Trace.cons (Step.joinRet _ 1 (by decide)) (Trace.nil _)))⟩
  exact ⟨fin, htr, (C8_happens_before oneWorld fin 1 [SStep.work 1, SStep.work 1] [] htr).1⟩

/-- C9: destroying a handle that owns no worker is a no-op: no join
event is emitted and no error is raised, because the join call in the
destructor is guarded by the joinable check, which is false there, while
an unguarded join on that handle would take the error branch. The
thread_guard destructor behaves the same way. -/
theorem C9_destroy_empty_noop (h : joining_thread) (hw : h.t.tid = none) :
    h.destroy = (h, [])
    ∧ h.joinable = false
    ∧ h.join = Except.error ThreadError.notJoinable
    ∧ thread_guard.destroy ⟨none⟩ = (⟨none⟩, []) := by
  obtain ⟨⟨tid⟩⟩ := h
  cases hw
  exact ⟨rfl, rfl, rfl, rfl⟩

/-- Witness for C9: destroying an empty handle returns it unchanged with
no events. -/
theorem C9_destroy_empty_noop_witness :
    joining_thread.destroy ⟨⟨none⟩⟩ = (⟨⟨none⟩⟩, []) :=
  (C9_destroy_empty_noop ⟨⟨none⟩⟩ rfl).1

/-- C10: swap exchanges the owned workers of the two handles without
resolving either one: no join or detach event is emitted even when both
handles own unresolved workers, applying swap twice restores both
handles to their original state, and in the trace model a swap never
changes the event log. -/
theorem C10_swap_exchanges (a b : joining_thread) :
    a.swap b = (⟨b.t⟩, ⟨a.t⟩, [])
    ∧ ((a.swap b).1.swap (a.swap b).2.1).1 = a
    ∧ ((a.swap b).1.swap (a.swap b).2.1).2.1 = b
    ∧ (∀ (s : Sys) (i j : Nat), (step s (Op.swap i j)).events = s.events) := by
  refine ⟨rfl, rfl, rfl, ?_⟩
  intro s i j
  simp only [step]
  split
  · rfl
  · rfl

end ConcurrencyPlayground
